import Mathlib

/-!
Verification of the `internalgraph` repository (src/internalgraph/internal_graph.py)
against its natural-language specification.

The Python code is shallowly embedded as follows.

* Element ids (`uuid.UUID | str`) are modelled as `GId := String` (the Python code
  accepts plain strings as ids, and no claim depends on the UUID structure).
* Property values are modelled as `Value := String` (the claims only inspect
  string-valued properties such as `label`).
* A Python `dict` is modelled as an insertion-ordered association list `Dict`
  with the Python operations `d[k]`, `d.get(k)`, `d1 | d2` (right-biased union,
  left order first, then new right keys) and iteration over items in order.
* Exceptions are modelled with explicit result types (`PRes`, `Except`, `GapRes`).
* `get_all_node_parents` is recursive with no structural termination measure in
  the source, so it is embedded with an explicit fuel parameter; `GapRes.outOfFuel`
  is a model artifact, and the theorems show a computable fuel bound that is
  sufficient on acyclic graphs.
-/

abbrev GId := String

abbrev Value := String

/-- Insertion-ordered association list modelling a Python `dict` from string keys
to property values. -/
abbrev Dict := List (String × Value)

/-- Python `d[k]` / `d.get(k)` lookup: the value at key `k`, if present.
In a genuine Python dict keys are unique, so the first match is the match. -/
def dlookup (d : Dict) (k : String) : Option Value :=
  match d with
  | [] => Option.none
  | (k', v) :: rest => if k' = k then some v else dlookup rest k

/-- Python dict union `d1 | d2`: keys of `d1` in their order (values overridden by
`d2` where present), followed by the keys of `d2` not in `d1`, in `d2`'s order. -/
def dunion (d1 d2 : Dict) : Dict :=
  d1.map (fun kv =>
    match dlookup d2 kv.1 with
    | some v => (kv.1, v)
    | Option.none => kv)
  ++ d2.filter (fun kv => decide (dlookup d1 kv.1 = Option.none))

/-- Result of `BaseGraphElement.get_property`: a value, the Python value `None`
(returned by `dict.get` on a missing key), or a raised `KeyError`. -/
inductive PRes where
  | val (v : Value)
  | pyNone
  | keyError
deriving DecidableEq, Repr

/-- Embedding of `BaseGraphElement.get_property(name, no_error)`: the name `"id"`
is answered from the element's id before the bag is consulted; otherwise the bag
is read, with a missing key giving `None` when `no_error` is set and a `KeyError`
otherwise. Shared by `Node` and `Edge`, which both inherit it unchanged. -/
def base_get_property (eid : GId) (props : Dict) (name : String) (no_error : Bool) : PRes :=
  if name = "id" then PRes.val eid
  else if no_error then
    match dlookup props name with
    | some v => PRes.val v
    | Option.none => PRes.pyNone
  else
    match dlookup props name with
    | some v => PRes.val v
    | Option.none => PRes.keyError

/-- Embedding of `BaseGraphElement.__iter__`: the source builds
`key_list = list(self._properties.keys())`, then appends `self.id` (the id value
itself, not the string `"id"`), and yields the members of `set(key_list)`.
The unordered Python set is modelled as a `Finset`. -/
def iterKeys (eid : GId) (props : Dict) : Finset String :=
  (props.map Prod.fst ++ [eid]).toFinset

/-- Embedding of `BaseGraphElement.split_dict`: partitions the items of `in_dict`
by key membership in `strip_list`, preserving order, and raises `ValueError`
when `strip_list` is empty. -/
def split_dict (in_dict : Dict) (strip_list : List String) :
    Except String (Dict × Dict) :=
  if strip_list.isEmpty then Except.error "strip_list must be non-empty"
  else Except.ok
    (in_dict.filter (fun kv => strip_list.contains kv.1),
     in_dict.filter (fun kv => !(strip_list.contains kv.1)))

/-- A node of the graph: an id and a property bag (`Node` adds nothing to
`BaseGraphElement`). Python compares nodes by object identity; the theorems that
depend on element equality assume distinct node ids, under which structural
equality agrees with identity for nodes obtained from the graph. -/
structure Node where
  id : GId
  properties : Dict
deriving DecidableEq, Repr

/-- An edge of the graph: endpoint ids `from_id`/`to_id` plus the inherited id
and property bag. -/
structure Edge where
  from_id : GId
  to_id : GId
  id : GId
  properties : Dict
deriving DecidableEq, Repr

def Node.get_property (n : Node) (name : String) (no_error : Bool) : PRes :=
  base_get_property n.id n.properties name no_error

def Edge.get_property (e : Edge) (name : String) (no_error : Bool) : PRes :=
  base_get_property e.id e.properties name no_error

/-- Embedding of `Node.__dict__` (inherited `BaseGraphElement.__dict__`):
`self._properties | {'id': self.id}`. -/
def Node.asDict (n : Node) : Dict :=
  dunion n.properties [("id", n.id)]

/-- Embedding of `Edge.__dict__`:
`self._properties | {'id': self.id, 'start': self.from_id, 'end': self.to_id}`. -/
def Edge.asDict (e : Edge) : Dict :=
  dunion e.properties [("id", e.id), ("start", e.from_id), ("end", e.to_id)]

/-- The serialized form `outer | {"short_details": inner}` produced by
`BaseGraphElement.serialize`. Because `"short_details"` is never a promoted key,
the result is represented losslessly as the promoted dict plus the nested one. -/
structure Serialized where
  outer : Dict
  short_details : Dict
deriving DecidableEq, Repr

/-- Default promoted-key list of `BaseGraphElement.serialize`. -/
def default_split_list : List String :=
  ["id", "label", "description", "type"]

/-- Promoted-key list used by `Edge.serialize`. -/
def edge_split_list : List String :=
  ["id", "label", "description", "type", "start", "end"]

/-- Embedding of `BaseGraphElement.serialize(split_list)` applied to an element's
`__dict__` value `d`: `if not split_list` (None or empty) installs the default
list, then `split_dict` partitions `d` into promoted fields and `short_details`. -/
def base_serialize (d : Dict) (split_list : Option (List String)) :
    Except String Serialized :=
  let sl :=
    match split_list with
    | Option.none => default_split_list
    | some l => if l.isEmpty then default_split_list else l
  match split_dict d sl with
  | Except.ok p => Except.ok ⟨p.1, p.2⟩
  | Except.error s => Except.error s

/-- `Node.serialize()` with the default promoted-key list. -/
def Node.serialize (n : Node) : Except String Serialized :=
  base_serialize n.asDict Option.none

/-- `Edge.serialize()`: calls the base serializer with the edge promoted-key
list (`start` and `end` added). -/
def Edge.serialize (e : Edge) : Except String Serialized :=
  base_serialize e.asDict (some edge_split_list)

/-- The graph container: ordered node and edge sequences plus the membership
index `_all_node_ids` (a Python set of ids, modelled as a `Finset`). -/
structure InternalGraph where
  nodes : List Node
  edges : List Edge
  all_node_ids : Finset GId
deriving DecidableEq

/-- Embedding of `InternalGraph.__init__(nodes, edges)`: missing or empty
arguments give empty sequences, and the membership index is seeded with the id
of every provided node. -/
def InternalGraph.init (nodes : Option (List Node)) (edges : Option (List Edge)) :
    InternalGraph :=
  let ns := match nodes with | some l => l | Option.none => []
  let es := match edges with | some l => l | Option.none => []
  { nodes := ns
    edges := es
    all_node_ids := ns.foldl (fun s x => insert x.id s) ∅ }

/-- Embedding of `InternalGraph.add_node`. The source normalizes a single node
to a one-element list, so the embedding takes the list form; it folds over the
input, appending each node whose id is not in the membership index (updating the
index alongside) and collecting exactly the appended nodes as the return value. -/
def InternalGraph.add_node (g : InternalGraph) (ns : List Node) :
    InternalGraph × List Node :=
  ns.foldl
    (fun p n =>
      if n.id ∈ p.1.all_node_ids then p
      else
        ({ p.1 with
            nodes := p.1.nodes ++ [n]
            all_node_ids := insert n.id p.1.all_node_ids },
         p.2 ++ [n]))
    (g, [])

/-- Embedding of `InternalGraph.add_edge`: unconditionally extends the edge
sequence (a single edge is the one-element list case). -/
def InternalGraph.add_edge (g : InternalGraph) (es : List Edge) : InternalGraph :=
  { g with edges := g.edges ++ es }

/-- Embedding of `InternalGraph.node_exists`: membership-index lookup. -/
def InternalGraph.node_exists (g : InternalGraph) (i : GId) : Bool :=
  decide (i ∈ g.all_node_ids)

/-- Loop of `InternalGraph.get_node_neighbors` over the edge sequence: each edge
yields its head when its tail matches and its tail when its head matches, in
edge order (a self-loop passes both tests and yields twice). -/
def neighborsAux (i : GId) (es : List Edge) : List GId :=
  es.foldr
    (fun e acc =>
      (if e.from_id = i then [e.to_id] else [])
        ++ ((if e.to_id = i then [e.from_id] else []) ++ acc))
    []

/-- Embedding of `InternalGraph.get_node_neighbors`: one pass over the edges. -/
def InternalGraph.get_node_neighbors (g : InternalGraph) (i : GId) : List GId :=
  neighborsAux i g.edges

/-- Embedding of `InternalGraph.get_all_edges(node_ids)`: the edges whose two
endpoints both lie in `node_ids`, in edge order. -/
def InternalGraph.get_all_edges (g : InternalGraph) (node_ids : List GId) :
    List Edge :=
  g.edges.filter (fun e => decide (e.from_id ∈ node_ids ∧ e.to_id ∈ node_ids))

/-- Embedding of `InternalGraph.get_all_node_property_names`: the set of keys of
`n.__dict__()` across all nodes. -/
def InternalGraph.get_all_node_property_names (g : InternalGraph) : Finset String :=
  g.nodes.foldr (fun n acc => (n.asDict.map Prod.fst).toFinset ∪ acc) ∅

/-- An element found by `InternalGraph.__getitem__`: a node or an edge. -/
inductive GItem where
  | nd (n : Node)
  | ed (e : Edge)
deriving DecidableEq, Repr

/-- The argument of `InternalGraph.__getitem__`: a raw id, a `Node`, or an
`Edge` (the `isinstance` dispatch in the source). -/
inductive Key where
  | kid (i : GId)
  | knode (n : Node)
  | kedge (e : Edge)
deriving DecidableEq, Repr

/-- Python `==` between an element id (a `uuid.UUID`/`str`) and a `Node` object:
`Node` defines no custom `__eq__`, so this cross-type comparison is always
`False`. The source's `isinstance(name, Node)` branch evaluates exactly this. -/
def pyEqIdNode (_i : GId) (_n : Node) : Bool := false

/-- Python `==` between an element id and an `Edge` object: always `False`,
as for nodes. -/
def pyEqIdEdge (_i : GId) (_e : Edge) : Bool := false

/-- Embedding of `InternalGraph.__getitem__(name)`: for a `Node` argument the
source scans only the node sequence comparing `x.id == name` (the node object
itself); for an `Edge` argument likewise over edges; for a raw id it scans the
node sequence and then the edge sequence for an id match. A fallthrough returns
Python `None`, modelled as `Option.none`. -/
def InternalGraph.getitem (g : InternalGraph) (name : Key) : Option GItem :=
  match name with
  | Key.knode n => (g.nodes.find? (fun x => pyEqIdNode x.id n)).map GItem.nd
  | Key.kedge e => (g.edges.find? (fun x => pyEqIdEdge x.id e)).map GItem.ed
  | Key.kid i =>
    match g.nodes.find? (fun x => decide (x.id = i)) with
    | some x => some (GItem.nd x)
    | Option.none => (g.edges.find? (fun x => decide (x.id = i))).map GItem.ed

/-- Result of the recursive descendant query `get_all_node_parents`:
a returned value (`res Option.none` is Python's `return None`, `res (some l)`
a returned list), a propagated `KeyError` from a missing `label` property, a
distinguished error for a child id that `self[...]` does not resolve to a node
(in Python the comprehension would instead place `None` or an `Edge` in the
list, failing later with an `AttributeError`-class error when that entry is
processed; all theorems except the dangling-edge counterexample assume this
does not occur), or fuel exhaustion (a model artifact of the unbounded
recursion in the source). -/
inductive GapRes where
  | outOfFuel
  | keyError
  | lookupError
  | res (r : Option (List Node))
deriving DecidableEq, Repr

/-- Resolution of `self[e.to_id]` inside `get_all_node_parents`: the raw-id
lookup of `__getitem__`, kept only when it produces a node. -/
def resolveChild (g : InternalGraph) (cid : GId) : Option Node :=
  match g.getitem (Key.kid cid) with
  | some (GItem.nd n) => some n
  | _ => Option.none

/-- Resolution of the whole child-id list built by the comprehension
`[self[e.to_id] for e in self.edges if e.from_id == start.id]`; `none` when
some id fails to resolve to a node. -/
def resolveAll (g : InternalGraph) (ids : List GId) : Option (List Node) :=
  match ids with
  | [] => some []
  | cid :: rest =>
    match resolveChild g cid, resolveAll g rest with
    | some n, some l => some (n :: l)
    | _, _ => Option.none

/-- The gate `found_node.get_property("label").find(":") < 0` skips a node;
recursion happens exactly when the label contains a colon (tested on the
character sequence of the string). -/
def labelHasColon (v : Value) : Bool :=
  v.data.contains ':'

/-- Python truthiness test `not parents or found_node not in parents`:
allowed when `parents` is `None` or empty, or does not contain the node. -/
def parentsAllow (parents : Option (List Node)) (u : Node) : Bool :=
  match parents with
  | Option.none => true
  | some ps => ps.isEmpty || !(decide (u ∈ ps))

/-- The dedup-append loop `for child in children: if child not in total:
total.append(child)`. The running list `total` is represented as the processed
prefix `done` plus the pending suffix `td`, so the membership guard checks
`done ++ td` and appends go to the end of the pending suffix. -/
def mergeTodo (done : List Node) (todo children : List Node) : List Node :=
  children.foldl (fun td c => if c ∈ done ++ td then td else td ++ [c]) todo

mutual

/-- Embedding of `InternalGraph.get_all_node_parents(start, parents)`. The
candidate list `total` is the resolved targets of the out-edges of `start`; if
it is empty the call returns `None`, otherwise the loop over the (growing)
list runs. `fuel` bounds the recursion depth plus loop steps; the source has
no such bound and recurses unboundedly on cyclic graphs. -/
def get_all_node_parents (g : InternalGraph) :
    Nat → Node → Option (List Node) → GapRes
  | 0, _, _ => GapRes.outOfFuel
  | fuel+1, start, parents =>
    match resolveAll g
        ((g.edges.filter (fun e => decide (e.from_id = start.id))).map
          Edge.to_id) with
    | Option.none => GapRes.lookupError
    | some total =>
      if total.isEmpty then GapRes.res Option.none
      else gapLoop g fuel parents [] total

/-- The loop `for found_node in total` of `get_all_node_parents`. Python
iterates by index over a list that grows while it is traversed; this is
represented as the processed prefix `done` and pending suffix of the running
list, so the current list is `done ++ todo`, newly found children are merged
into the end of `todo`, and the loop ends (returning the whole list) when the
index passes the end. A missing `label` raises `KeyError`; for a colon label
the recursion runs when `not parents or found_node not in parents`, passing
the current list as the new `parents`; `if children:` merges a returned list
(a returned `None`, and equally an empty list, merges nothing). The
`PRes.pyNone` branch is unreachable because `no_error` is `False` here. -/
def gapLoop (g : InternalGraph) :
    Nat → Option (List Node) → List Node → List Node → GapRes
  | 0, _, _, _ => GapRes.outOfFuel
  | _+1, _, done, [] => GapRes.res (some done)
  | fuel+1, parents, done, u :: rest =>
    match u.get_property "label" false with
    | PRes.keyError => GapRes.keyError
    | PRes.pyNone => GapRes.keyError
    | PRes.val lv =>
      if labelHasColon lv then
        if parentsAllow parents u then
          match get_all_node_parents g fuel u (some (done ++ u :: rest)) with
          | GapRes.res (some children) =>
            gapLoop g fuel parents (done ++ [u])
              (mergeTodo (done ++ [u]) rest children)
          | GapRes.res Option.none => gapLoop g fuel parents (done ++ [u]) rest
          | e => e
        else gapLoop g fuel parents (done ++ [u]) rest
      else gapLoop g fuel parents (done ++ [u]) rest

end

/-- The direct children of `u`: the resolved targets of its out-edges (the
initial `total` of `get_all_node_parents(u, .)`, when every target resolves). -/
def kids (g : InternalGraph) (u : Node) : List Node :=
  ((g.edges.filter (fun e => decide (e.from_id = u.id))).map
    Edge.to_id).filterMap (resolveChild g)

/-- The edge relation on ids: some edge leads from `a` to `b`. -/
def stepR (g : InternalGraph) (a b : GId) : Prop :=
  ∃ e, e ∈ g.edges ∧ e.from_id = a ∧ e.to_id = b

/-- Acyclicity of the edge relation: no id reaches itself through one or more
edges. -/
def Acyclic (g : InternalGraph) : Prop :=
  ∀ a : GId, ¬ Relation.TransGen (stepR g) a a

/-- Every edge target resolves to a node via `__getitem__` (no dangling edges
and no node/edge id collisions on edge targets). -/
def Resolvable (g : InternalGraph) : Prop :=
  ∀ e ∈ g.edges, (resolveChild g e.to_id).isSome = true

/-- The element has a `label` property in its bag. -/
def labelled (n : Node) : Prop :=
  (dlookup n.properties "label").isSome = true

/-- Every node of the graph carries a `label` property. -/
def LabelsOk (g : InternalGraph) : Prop :=
  ∀ n ∈ g.nodes, labelled n

/-- The node sequence has pairwise distinct ids (under which Python object
identity and structural equality agree for nodes retrieved from the graph). -/
def NodupIds (g : InternalGraph) : Prop :=
  (g.nodes.map Node.id).Nodup

/-- The node's label, if any, contains a colon. -/
def colonN (n : Node) : Bool :=
  match dlookup n.properties "label" with
  | some v => labelHasColon v
  | Option.none => false

/-- Closure computed by the descendant query, phrased on nodes: the direct
children of `u`, plus the children of any already-reached node whose label has
a colon. -/
inductive Desc (g : InternalGraph) : Node → Node → Prop where
  | base : ∀ {u n}, n ∈ kids g u → Desc g u n
  | step : ∀ {u m n}, Desc g u m → colonN m = true → n ∈ kids g m → Desc g u n

/-- The id belongs to a node of the graph whose label contains a colon. -/
def colonId (g : InternalGraph) (b : GId) : Prop :=
  ∃ nd, nd ∈ g.nodes ∧ nd.id = b ∧ colonN nd = true

/-- The claim's reachability predicate, phrased on ids exactly as the spec
words it: reachable from `s` by following outgoing edges, where every
intermediate node after the first hop has a colon in its label. -/
inductive ReachVC (g : InternalGraph) (s : GId) : GId → Prop where
  | direct : ∀ e, e ∈ g.edges → e.from_id = s → ReachVC g s e.to_id
  | through : ∀ m e, ReachVC g s m → colonId g m → e ∈ g.edges →
      e.from_id = m → ReachVC g s e.to_id

/-- The node ids strictly reachable from `a`: the induction measure for the
recursion (it shrinks along every recursive call on an acyclic graph). -/
def Astrict (g : InternalGraph) (a : GId) : Set GId :=
  {b | b ∈ g.nodes.map Node.id ∧ Relation.TransGen (stepR g) a b}

/-- Number of (distinct) graph nodes not yet present in the running list: the
loop potential that pays for list growth. -/
def muRem (g : InternalGraph) (t : List Node) : Nat :=
  (g.nodes.dedup.filter (fun x => !(decide (x ∈ t)))).length

/-- Fuel sufficient for a call whose measure `(Astrict g u.id).ncard` is at
most `d`. -/
def fNeed (g : InternalGraph) (d : Nat) : Nat :=
  (g.edges.length + g.nodes.length + 2) * d + 1

/-- Fuel sufficient for any top-level call on an acyclic graph. -/
def fuelBound (g : InternalGraph) : Nat :=
  fNeed g g.nodes.length

/-- Specification satisfied by `get_all_node_parents g fuel u parents` at
sufficient fuel on an acyclic, resolvable graph: `None` exactly when `u` has
no children; otherwise either a propagated `KeyError` (impossible when all
nodes are labelled) or a list that contains all direct children, contains only
labelled graph nodes reached by the `Desc` closure, is duplicate-free whenever
the direct-children list is, and — for a top-level call (`parents = None`) —
is closed under taking children of its colon-labelled members. -/
def GapOut (g : InternalGraph) (u : Node) (parents : Option (List Node))
    (r : GapRes) : Prop :=
  ((kids g u = [] → r = GapRes.res Option.none) ∧
   (kids g u ≠ [] →
     r = GapRes.keyError ∨
     ∃ l, r = GapRes.res (some l) ∧
       (∀ n ∈ kids g u, n ∈ l) ∧
       (∀ n ∈ l, n ∈ g.nodes ∧ Desc g u n ∧ labelled n) ∧
       ((kids g u).Nodup → l.Nodup) ∧
       (parents = Option.none →
         ∀ w ∈ l, colonN w = true → ∀ c ∈ kids g w, c ∈ l))) ∧
  (LabelsOk g → r ≠ GapRes.keyError)

/-- Start node of the parallel-edge counterexample to claim C1. -/
def c1NodeS : Node := ⟨"s", [("label", "S")]⟩

/-- Target node of the parallel-edge counterexample to claim C1. -/
def c1NodeV : Node := ⟨"v", [("label", "V")]⟩

/-- Acyclic, fully labelled, resolvable graph with two parallel edges from
`s` to `v` (counterexample to claim C1's at-most-once guarantee). -/
def c1Graph : InternalGraph :=
  InternalGraph.init (some [c1NodeS, c1NodeV])
    (some [⟨"s", "v", "e1", []⟩, ⟨"s", "v", "e2", []⟩])

/-- Start node of the witness graph for the amended claim C1. -/
def w1NodeS : Node := ⟨"s", [("label", "S")]⟩

/-- Colon-labelled intermediate node of the witness graph for claim C1. -/
def w1NodeA : Node := ⟨"a", [("label", "x:y")]⟩

/-- Leaf node of the witness graph for claim C1. -/
def w1NodeB : Node := ⟨"b", [("label", "z")]⟩

/-- Witness graph for the amended claim C1: the chain `s -> a -> b` where `a`
is colon-labelled, so `b` is reached transitively through `a`. -/
def w1Graph : InternalGraph :=
  InternalGraph.init (some [w1NodeS, w1NodeA, w1NodeB])
    (some [⟨"s", "a", "e1", []⟩, ⟨"a", "b", "e2", []⟩])

/-- Start node of both C10 graphs. -/
def c10NodeS : Node := ⟨"s", [("label", "S")]⟩

/-- Node with no `label` property, directly reachable from `s`. -/
def c10NodeB : Node := ⟨"b", []⟩

/-- Counterexample graph for claim C10: the first edge from `s` dangles (its
target `"x"` resolves to no element), the second reaches the unlabelled `b`.
Python places `None` in the candidate list and fails with `AttributeError`
(`None` has no `get_property`), not with a missing-key error. -/
def c10Graph : InternalGraph :=
  InternalGraph.init (some [c10NodeS, c10NodeB])
    (some [⟨"s", "x", "e1", []⟩, ⟨"s", "b", "e2", []⟩])

/-- Witness graph for the amended claim C10: one edge from `s` to the
unlabelled node `b`. -/
def w10Graph : InternalGraph :=
  InternalGraph.init (some [c10NodeS, c10NodeB]) (some [⟨"s", "b", "e2", []⟩])

/-- A mutation of the graph observable through the public interface: one
`add_node` call (list form; a single element is the one-element list) or one
`add_edge` call. -/
inductive GOp where
  | addNode (ns : List Node)
  | addEdge (es : List Edge)

/-- Apply one mutation to the graph, discarding `add_node`'s return value. -/
def applyOp (g : InternalGraph) (op : GOp) : InternalGraph :=
  match op with
  | GOp.addNode ns => (g.add_node ns).1
  | GOp.addEdge es => g.add_edge es

/-- Apply a sequence of mutations in order. -/
def runOps (g : InternalGraph) (ops : List GOp) : InternalGraph :=
  ops.foldl applyOp g

/-- The set of ids of a node sequence. -/
def idSet (l : List Node) : Finset GId :=
  (l.map Node.id).toFinset

/-- The membership-index invariant: `_all_node_ids` equals the set of ids in the
node sequence. -/
def IndexSync (g : InternalGraph) : Prop :=
  g.all_node_ids = idSet g.nodes

/-- Node used to exhibit the `__getitem__` entity-lookup defect (claim C2). -/
def c2Node : Node := { id := "a", properties := [("label", "A")] }

/-- Graph holding `c2Node`, built through the constructor. -/
def c2Graph : InternalGraph := InternalGraph.init (some [c2Node]) Option.none

/-- Node used to exhibit the `__iter__` defect (claim C3). -/
def c3Node : Node := { id := "n1", properties := [("a", "x")] }

/-! Lemmas about the dict model, used to settle the serialization claims. -/

theorem dlookup_append (a b : Dict) (k : String) :
    dlookup (a ++ b) k =
      match dlookup a k with
      | some v => some v
      | Option.none => dlookup b k := by
  induction a with
  | nil => simp [dlookup]
  | cons kv rest ih =>
    by_cases h : kv.1 = k
    · cases kv; simp_all [dlookup]
    · cases kv; simp_all [dlookup]

theorem dlookup_filter_key (d : Dict) (q : String → Bool) (k : String) :
    dlookup (d.filter (fun kv => q kv.1)) k =
      if q k then dlookup d k else Option.none := by
  induction d with
  | nil => simp [dlookup]
  | cons kv rest ih =>
    by_cases hq : q kv.1
    · by_cases hk : kv.1 = k
      · cases kv; subst hk; simp_all [List.filter_cons, dlookup]
      · cases kv; simp_all [List.filter_cons, dlookup]
    · by_cases hk : kv.1 = k
      · cases kv; subst hk; simp_all [List.filter_cons, dlookup]
      · cases kv; simp_all [List.filter_cons, dlookup]

theorem dlookup_map_override (d1 d2 : Dict) (k : String) :
    dlookup
      (d1.map (fun kv =>
        match dlookup d2 kv.1 with
        | some v => (kv.1, v)
        | Option.none => kv)) k
      = (dlookup d1 k).map (fun w => (dlookup d2 k).getD w) := by
  induction d1 with
  | nil => simp [dlookup]
  | cons kv rest ih =>
    by_cases hk : kv.1 = k
    · cases kv with
      | mk k1 v1 =>
        simp only at hk
        subst hk
        cases h2 : dlookup d2 k1 <;> simp [dlookup, h2]
    · cases kv with
      | mk k1 v1 =>
        simp only at hk
        cases h2 : dlookup d2 k1 <;> simp [dlookup, h2, hk, ih]

theorem dlookup_dunion (d1 d2 : Dict) (k : String) :
    dlookup (dunion d1 d2) k =
      match dlookup d2 k with
      | some v => some v
      | Option.none => dlookup d1 k := by
  unfold dunion
  rw [dlookup_append, dlookup_map_override,
      dlookup_filter_key d2 (fun s => decide (dlookup d1 s = Option.none)) k]
  cases h1 : dlookup d1 k <;> cases h2 : dlookup d2 k <;> simp [h1, h2]

theorem filter_map_override_eq (props d2 : Dict) (q : String → Bool)
    (h : ∀ s, q s = false → dlookup d2 s = Option.none) :
    ((props.map (fun kv =>
        match dlookup d2 kv.1 with
        | some v => (kv.1, v)
        | Option.none => kv)).filter (fun kv => !q kv.1))
      = props.filter (fun kv => !q kv.1) := by
  induction props with
  | nil => rfl
  | cons kv rest ih =>
    cases kv with
    | mk k1 v1 =>
      by_cases hq : q k1
      · cases h2 : dlookup d2 k1 <;> simp [List.filter_cons, hq, h2, ih]
      · have hnone : dlookup d2 k1 = Option.none := h k1 (by simp [hq])
        simp [List.filter_cons, hq, hnone, ih]

theorem node_asDict_filter_not_promoted (n : Node) :
    n.asDict.filter (fun kv => !(default_split_list.contains kv.1))
      = n.properties.filter (fun kv => !(default_split_list.contains kv.1)) := by
  unfold Node.asDict dunion
  rw [List.filter_append]
  rw [filter_map_override_eq n.properties [("id", n.id)]
        (fun s => default_split_list.contains s)]
  · have h2 : ([("id", n.id)].filter
        (fun kv => decide (dlookup n.properties kv.1 = Option.none))).filter
          (fun kv => !(default_split_list.contains kv.1)) = [] := by
      by_cases hp : dlookup n.properties "id" = Option.none <;>
        simp [List.filter_cons, hp, default_split_list]
    rw [h2, List.append_nil]
  · intro s hs
    by_cases hid : "id" = s
    · subst hid
      exact absurd hs (by decide)
    · simp [dlookup, hid]

theorem edge_asDict_filter_not_promoted (e : Edge) :
    e.asDict.filter (fun kv => !(edge_split_list.contains kv.1))
      = e.properties.filter (fun kv => !(edge_split_list.contains kv.1)) := by
  unfold Edge.asDict dunion
  rw [List.filter_append]
  rw [filter_map_override_eq e.properties
        [("id", e.id), ("start", e.from_id), ("end", e.to_id)]
        (fun s => edge_split_list.contains s)]
  · have h2 : (([("id", e.id), ("start", e.from_id), ("end", e.to_id)].filter
        (fun kv => decide (dlookup e.properties kv.1 = Option.none))).filter
          (fun kv => !(edge_split_list.contains kv.1))) = [] := by
      by_cases h1 : dlookup e.properties "id" = Option.none <;>
        by_cases h2 : dlookup e.properties "start" = Option.none <;>
          by_cases h3 : dlookup e.properties "end" = Option.none <;>
            simp [List.filter_cons, h1, h2, h3, dlookup, edge_split_list]
    rw [h2, List.append_nil]
  · intro s hs
    by_cases hid : "id" = s
    · subst hid
      exact absurd hs (by decide)
    · by_cases hst : "start" = s
      · subst hst
        exact absurd hs (by decide)
      · by_cases hen : "end" = s
        · subst hen
          exact absurd hs (by decide)
        · simp [dlookup, hid, hst, hen]

/-- C8: for every entity serialized with the default promoted-key list, the
serialized `id` field equals the entity's id and `short_details` equals the
property bag with the promoted keys removed; an `Edge` additionally promotes
`start` (= `from_id`) and `end` (= `to_id`) to the top level. -/
theorem serialize_spec (n : Node) (e : Edge) :
    (∃ s, Node.serialize n = Except.ok s ∧
        dlookup s.outer "id" = some n.id ∧
        s.short_details
          = n.properties.filter (fun kv => !(default_split_list.contains kv.1))) ∧
    (∃ t, Edge.serialize e = Except.ok t ∧
        dlookup t.outer "id" = some e.id ∧
        dlookup t.outer "start" = some e.from_id ∧
        dlookup t.outer "end" = some e.to_id ∧
        t.short_details
          = e.properties.filter (fun kv => !(edge_split_list.contains kv.1))) := by
  constructor
  · refine ⟨⟨n.asDict.filter (fun kv => default_split_list.contains kv.1),
             n.asDict.filter (fun kv => !(default_split_list.contains kv.1))⟩,
      rfl, ?_, node_asDict_filter_not_promoted n⟩
    rw [dlookup_filter_key n.asDict (fun s => default_split_list.contains s) "id"]
    simp only [show default_split_list.contains "id" = true from by decide, if_pos]
    unfold Node.asDict
    rw [dlookup_dunion]
    rfl
  · refine ⟨⟨e.asDict.filter (fun kv => edge_split_list.contains kv.1),
             e.asDict.filter (fun kv => !(edge_split_list.contains kv.1))⟩,
      rfl, ?_, ?_, ?_, edge_asDict_filter_not_promoted e⟩ <;>
    · first
      | (rw [dlookup_filter_key e.asDict (fun s => edge_split_list.contains s) "id"]
         simp only [show edge_split_list.contains "id" = true from by decide, if_pos]
         unfold Edge.asDict
         rw [dlookup_dunion]
         rfl)
      | (rw [dlookup_filter_key e.asDict (fun s => edge_split_list.contains s) "start"]
         simp only [show edge_split_list.contains "start" = true from by decide, if_pos]
         unfold Edge.asDict
         rw [dlookup_dunion]
         rfl)
      | (rw [dlookup_filter_key e.asDict (fun s => edge_split_list.contains s) "end"]
         simp only [show edge_split_list.contains "end" = true from by decide, if_pos]
         unfold Edge.asDict
         rw [dlookup_dunion]
         rfl)

/-- C9: `get_property` answers `"id"` from the entity id regardless of the bag;
any other name returns the stored value when present; when absent it raises a
`KeyError` unless `no_error` is set, in which case Python `None` is returned. -/
theorem get_property_spec (eid : GId) (props : Dict) (name : String) (b : Bool) :
    (name = "id" → base_get_property eid props name b = PRes.val eid) ∧
    (name ≠ "id" → ∀ v, dlookup props name = some v →
        base_get_property eid props name b = PRes.val v) ∧
    (name ≠ "id" → dlookup props name = Option.none →
        base_get_property eid props name b
          = if b then PRes.pyNone else PRes.keyError) := by
  refine ⟨?_, ?_, ?_⟩
  · intro h
    simp [base_get_property, h]
  · intro h v hv
    cases b <;> simp [base_get_property, h, hv]
  · intro h hv
    cases b <;> simp [base_get_property, h, hv]

theorem get_property_spec_witness :
    base_get_property "e1" [("a", "x")] "id" false = PRes.val "e1" ∧
    base_get_property "e1" [("a", "x")] "a" false = PRes.val "x" ∧
    base_get_property "e1" [("a", "x")] "b" false = PRes.keyError ∧
    base_get_property "e1" [("a", "x")] "b" true = PRes.pyNone :=
  ⟨(get_property_spec "e1" [("a", "x")] "id" false).1 rfl,
   (get_property_spec "e1" [("a", "x")] "a" false).2.1 (by decide) "x" (by decide),
   (get_property_spec "e1" [("a", "x")] "b" false).2.2 (by decide) (by decide),
   (get_property_spec "e1" [("a", "x")] "b" true).2.2 (by decide) (by decide)⟩

/-- C2 (code bug): looking up an element by passing the element itself returns
an absent result, because `__getitem__` compares each candidate's id against the
passed `Node` object itself (`x.id == name`) instead of extracting `name.id`;
the same graph resolves the raw id correctly, which is the documented intent. -/
theorem getitem_entity_lookup_misses :
    InternalGraph.getitem c2Graph (Key.knode c2Node) = Option.none ∧
    InternalGraph.getitem c2Graph (Key.kid "a") = some (GItem.nd c2Node) := by
  constructor <;> rfl

/-- C3 (code bug): the iteration contract of `BaseGraphElement.__iter__` yields
the property-bag keys together with the id value `"n1"` itself, not the literal
key `"id"` — `self.id` is appended to the key list where the string `'id'` was
intended (the docstring promises strings to feed to `get_property`, and the
sibling `get_all_node_property_names`, asserted by the tests, does contain
`"id"`). -/
theorem iterKeys_misses_id :
    iterKeys c3Node.id c3Node.properties = {"a", "n1"} ∧
    "id" ∉ iterKeys c3Node.id c3Node.properties ∧
    "id" ∈ InternalGraph.get_all_node_property_names
        (InternalGraph.init (some [c3Node]) Option.none) := by
  refine ⟨?_, ?_, ?_⟩ <;> decide

/-! Lemmas for the membership-index invariant (claim C4) and `add_node`
semantics (claim C5). -/

theorem foldl_insert_ids (ns : List Node) (s : Finset GId) :
    ns.foldl (fun s x => insert x.id s) s = s ∪ idSet ns := by
  induction ns generalizing s with
  | nil => simp [idSet]
  | cons n rest ih =>
    rw [List.foldl_cons, ih]
    have : idSet (n :: rest) = insert n.id (idSet rest) := by
      simp [idSet]
    rw [this, Finset.union_insert, Finset.insert_union]

theorem init_index_sync (a : Option (List Node)) (b : Option (List Edge)) :
    IndexSync (InternalGraph.init a b) := by
  unfold IndexSync InternalGraph.init
  cases a <;> simp [foldl_insert_ids, idSet]

theorem idSet_append_one (l : List Node) (n : Node) :
    idSet (l ++ [n]) = insert n.id (idSet l) := by
  simp [idSet, Finset.union_comm, Finset.insert_eq]

theorem add_node_fold_sync (ns : List Node) (g : InternalGraph) (acc : List Node)
    (h : IndexSync g) :
    IndexSync
      (ns.foldl
        (fun p n =>
          if n.id ∈ p.1.all_node_ids then p
          else
            ({ p.1 with
                nodes := p.1.nodes ++ [n]
                all_node_ids := insert n.id p.1.all_node_ids },
             p.2 ++ [n]))
        (g, acc)).1 := by
  induction ns generalizing g acc with
  | nil => exact h
  | cons n rest ih =>
    rw [List.foldl_cons]
    by_cases hm : n.id ∈ g.all_node_ids
    · simp only [hm, if_pos]
      exact ih g acc h
    · simp only [hm, if_neg, not_false_iff]
      refine ih _ _ ?_
      unfold IndexSync at h ⊢
      simp only [h, idSet_append_one]

theorem add_node_sync (g : InternalGraph) (ns : List Node) (h : IndexSync g) :
    IndexSync (g.add_node ns).1 :=
  add_node_fold_sync ns g [] h

theorem applyOp_sync (g : InternalGraph) (op : GOp) (h : IndexSync g) :
    IndexSync (applyOp g op) := by
  cases op with
  | addNode ns => exact add_node_sync g ns h
  | addEdge es => exact h

/-- C4: starting from any constructor-initialized graph, after any sequence of
`add_node` and `add_edge` operations the membership index `_all_node_ids`
equals exactly the set of ids of the nodes in the node sequence. -/
theorem membership_index_invariant (a : Option (List Node))
    (b : Option (List Edge)) (ops : List GOp) :
    (runOps (InternalGraph.init a b) ops).all_node_ids
      = idSet (runOps (InternalGraph.init a b) ops).nodes := by
  have : ∀ (g : InternalGraph), IndexSync g → IndexSync (runOps g ops) := by
    induction ops with
    | nil => exact fun g h => h
    | cons op rest ih =>
      intro g h
      exact ih (applyOp g op) (applyOp_sync g op h)
  exact this (InternalGraph.init a b) (init_index_sync a b)

theorem add_node_fold_appends (ns : List Node) (g : InternalGraph) (acc : List Node) :
    ∃ s : List Node,
      (ns.foldl
        (fun p n =>
          if n.id ∈ p.1.all_node_ids then p
          else
            ({ p.1 with
                nodes := p.1.nodes ++ [n]
                all_node_ids := insert n.id p.1.all_node_ids },
             p.2 ++ [n]))
        (g, acc)).1.nodes = g.nodes ++ s ∧
      (ns.foldl
        (fun p n =>
          if n.id ∈ p.1.all_node_ids then p
          else
            ({ p.1 with
                nodes := p.1.nodes ++ [n]
                all_node_ids := insert n.id p.1.all_node_ids },
             p.2 ++ [n]))
        (g, acc)).2 = acc ++ s ∧
      List.Sublist s ns := by
  induction ns generalizing g acc with
  | nil => exact ⟨[], by simp, by simp, List.nil_sublist _⟩
  | cons n rest ih =>
    rw [List.foldl_cons]
    by_cases hm : n.id ∈ g.all_node_ids
    · simp only [hm, if_pos]
      obtain ⟨s, h1, h2, h3⟩ := ih g acc
      exact ⟨s, h1, h2, List.Sublist.cons n h3⟩
    · simp only [hm, if_neg, not_false_iff]
      obtain ⟨s, h1, h2, h3⟩ :=
        ih { g with
              nodes := g.nodes ++ [n]
              all_node_ids := insert n.id g.all_node_ids } (acc ++ [n])
      refine ⟨n :: s, ?_, ?_, List.Sublist.cons₂ n h3⟩
      · simp only at h1
        rw [h1, List.append_assoc]
        rfl
      · rw [h2, List.append_assoc]
        rfl

/-- C5: adding a node whose id is already in the membership index leaves the
node sequence unchanged in length and returns an empty list; adding a node with
a fresh id appends it, grows the sequence by one, and returns exactly that node;
for a list argument the returned list is exactly the sublist of input nodes that
was actually appended to the node sequence. -/
theorem add_node_spec (g : InternalGraph) (n : Node) (ns : List Node) :
    (n.id ∈ g.all_node_ids →
        (g.add_node [n]).1.nodes.length = g.nodes.length ∧
        (g.add_node [n]).2 = []) ∧
    (n.id ∉ g.all_node_ids →
        (g.add_node [n]).1.nodes.length = g.nodes.length + 1 ∧
        (g.add_node [n]).2 = [n]) ∧
    ((g.add_node ns).1.nodes = g.nodes ++ (g.add_node ns).2 ∧
        List.Sublist (g.add_node ns).2 ns) := by
  refine ⟨?_, ?_, ?_⟩
  · intro hm
    simp [InternalGraph.add_node, hm]
  · intro hm
    simp [InternalGraph.add_node, hm]
  · obtain ⟨s, h1, h2, h3⟩ := add_node_fold_appends ns g []
    unfold InternalGraph.add_node
    constructor
    · rw [h1, h2]
      simp
    · rw [h2]
      simpa using h3

theorem add_node_spec_witness :
    (("a" : GId) ∈ c2Graph.all_node_ids ∧
        (c2Graph.add_node [c2Node]).1.nodes.length = c2Graph.nodes.length ∧
        (c2Graph.add_node [c2Node]).2 = []) ∧
    (("b" : GId) ∉ c2Graph.all_node_ids ∧
        (c2Graph.add_node [⟨"b", []⟩]).1.nodes.length = c2Graph.nodes.length + 1 ∧
        (c2Graph.add_node [⟨"b", []⟩]).2 = [⟨"b", []⟩]) ∧
    ((c2Graph.add_node [c2Node, ⟨"b", []⟩]).1.nodes
        = c2Graph.nodes ++ (c2Graph.add_node [c2Node, ⟨"b", []⟩]).2 ∧
      List.Sublist (c2Graph.add_node [c2Node, ⟨"b", []⟩]).2 [c2Node, ⟨"b", []⟩]) :=
  ⟨⟨by decide,
    (add_node_spec c2Graph c2Node [c2Node]).1 (by decide)⟩,
   ⟨by decide,
    (add_node_spec c2Graph ⟨"b", []⟩ [⟨"b", []⟩]).2.1 (by decide)⟩,
   (add_node_spec c2Graph c2Node [c2Node, ⟨"b", []⟩]).2.2⟩

/-! Lemmas for the neighbor query (claim C6) and the induced-edge query
(claim C7). -/

theorem neighborsAux_mem (es : List Edge) (i y : GId) :
    y ∈ neighborsAux i es ↔
      ∃ e, e ∈ es ∧
        ((e.from_id = i ∧ e.to_id = y) ∨ (e.to_id = i ∧ e.from_id = y)) := by
  induction es with
  | nil => simp [neighborsAux]
  | cons e rest ih =>
    unfold neighborsAux at ih ⊢
    rw [List.foldr_cons]
    constructor
    · intro hy
      rcases List.mem_append.1 hy with h | h
      · refine ⟨e, List.mem_cons_self e rest, ?_⟩
        by_cases hf : e.from_id = i
        · simp only [hf, if_pos] at h
          exact Or.inl ⟨hf, (List.mem_singleton.1 h).symm⟩
        · simp [hf] at h
      · rcases List.mem_append.1 h with h | h
        · refine ⟨e, List.mem_cons_self e rest, ?_⟩
          by_cases ht : e.to_id = i
          · simp only [ht, if_pos] at h
            exact Or.inr ⟨ht, (List.mem_singleton.1 h).symm⟩
          · simp [ht] at h
        · obtain ⟨e', he', hcase⟩ := ih.1 h
          exact ⟨e', List.mem_cons_of_mem e he', hcase⟩
    · rintro ⟨e', he', hcase⟩
      rcases List.mem_cons.1 he' with rfl | he'
      · rcases hcase with ⟨h1, h2⟩ | ⟨h1, h2⟩
        · exact List.mem_append.2 (Or.inl (by simp [h1, h2]))
        · refine List.mem_append.2 (Or.inr (List.mem_append.2 (Or.inl ?_)))
          simp [h1, h2]
      · exact List.mem_append.2
          (Or.inr (List.mem_append.2 (Or.inr (ih.2 ⟨e', he', hcase⟩))))

theorem neighborsAux_count_self (es : List Edge) (i : GId) :
    (neighborsAux i es).count i
      = 2 * es.countP (fun e => decide (e.from_id = i ∧ e.to_id = i)) := by
  induction es with
  | nil => simp [neighborsAux]
  | cons e rest ih =>
    unfold neighborsAux at ih ⊢
    rw [List.foldr_cons, List.count_append, List.count_append, List.countP_cons]
    by_cases hf : e.from_id = i <;> by_cases ht : e.to_id = i <;>
      (simp [hf, ht, List.count_singleton, ih, Nat.mul_add]; try omega)

/-- C6: the neighbor query scans the edge sequence, yielding `to_id` whenever
`from_id` matches and `from_id` whenever `to_id` matches; hence for every edge
(u to v), `v` is among `neighbors(u)` and `u` among `neighbors(v)`, and a
self-loop at `X` contributes `X` to `neighbors(X)` exactly twice. -/
theorem get_node_neighbors_spec (g : InternalGraph) (i : GId) :
    (∀ y, y ∈ g.get_node_neighbors i ↔
        ∃ e, e ∈ g.edges ∧
          ((e.from_id = i ∧ e.to_id = y) ∨ (e.to_id = i ∧ e.from_id = y))) ∧
    (∀ e, e ∈ g.edges →
        e.to_id ∈ g.get_node_neighbors e.from_id ∧
        e.from_id ∈ g.get_node_neighbors e.to_id) ∧
    ((g.get_node_neighbors i).count i
        = 2 * g.edges.countP (fun e => decide (e.from_id = i ∧ e.to_id = i))) := by
  refine ⟨?_, ?_, ?_⟩
  · intro y
    exact neighborsAux_mem g.edges i y
  · intro e he
    constructor
    · exact (neighborsAux_mem g.edges e.from_id e.to_id).2 ⟨e, he, Or.inl ⟨rfl, rfl⟩⟩
    · exact (neighborsAux_mem g.edges e.to_id e.from_id).2 ⟨e, he, Or.inr ⟨rfl, rfl⟩⟩
  · exact neighborsAux_count_self g.edges i

theorem get_node_neighbors_spec_witness :
    (⟨"a", "b", "eab", []⟩ : Edge) ∈ (InternalGraph.init Option.none
        (some [⟨"a", "b", "eab", []⟩, ⟨"x", "x", "exx", []⟩])).edges ∧
    ("b" : GId) ∈ (InternalGraph.init Option.none
        (some [⟨"a", "b", "eab", []⟩, ⟨"x", "x", "exx", []⟩])).get_node_neighbors "a" ∧
    ("a" : GId) ∈ (InternalGraph.init Option.none
        (some [⟨"a", "b", "eab", []⟩, ⟨"x", "x", "exx", []⟩])).get_node_neighbors "b" ∧
    ((InternalGraph.init Option.none
        (some [⟨"a", "b", "eab", []⟩, ⟨"x", "x", "exx", []⟩])).get_node_neighbors "x").count "x"
      = 2 * (InternalGraph.init Option.none
        (some [⟨"a", "b", "eab", []⟩, ⟨"x", "x", "exx", []⟩])).edges.countP
          (fun e => decide (e.from_id = "x" ∧ e.to_id = "x")) := by
  have h := get_node_neighbors_spec
    (InternalGraph.init Option.none
      (some [⟨"a", "b", "eab", []⟩, ⟨"x", "x", "exx", []⟩])) "x"
  have hsym := h.2.1 ⟨"a", "b", "eab", []⟩ (by decide)
  exact ⟨by decide, hsym.1, hsym.2, h.2.2⟩

/-- C7: every edge yielded by the induced-edge query has both endpoints in the
given id collection, and (for a duplicate-free edge sequence) every edge of the
graph with both endpoints in the collection is yielded exactly once. -/
theorem get_all_edges_spec (g : InternalGraph) (S : List GId) :
    (∀ e, e ∈ g.get_all_edges S → e.from_id ∈ S ∧ e.to_id ∈ S) ∧
    (g.edges.Nodup → ∀ e, e ∈ g.edges → e.from_id ∈ S → e.to_id ∈ S →
        (g.get_all_edges S).count e = 1) := by
  constructor
  · intro e he
    have := List.of_mem_filter he
    exact of_decide_eq_true this
  · intro hd e he hf ht
    have hmem : e ∈ g.get_all_edges S :=
      List.mem_filter.2 ⟨he, decide_eq_true ⟨hf, ht⟩⟩
    exact List.count_eq_one_of_mem (hd.filter _) hmem

theorem get_all_edges_spec_witness :
    ((InternalGraph.init Option.none
        (some [⟨"a", "b", "eab", []⟩, ⟨"a", "c", "eac", []⟩])).edges.Nodup ∧
      (⟨"a", "b", "eab", []⟩ : Edge) ∈ (InternalGraph.init Option.none
        (some [⟨"a", "b", "eab", []⟩, ⟨"a", "c", "eac", []⟩])).edges ∧
      ("a" : GId) ∈ ["a", "b"] ∧ ("b" : GId) ∈ ["a", "b"]) ∧
    ((InternalGraph.init Option.none
        (some [⟨"a", "b", "eab", []⟩, ⟨"a", "c", "eac", []⟩])).get_all_edges
          ["a", "b"]).count ⟨"a", "b", "eab", []⟩ = 1 :=
  ⟨⟨by decide, by decide, by decide, by decide⟩,
   (get_all_edges_spec (InternalGraph.init Option.none
      (some [⟨"a", "b", "eab", []⟩, ⟨"a", "c", "eac", []⟩])) ["a", "b"]).2
    (by decide) ⟨"a", "b", "eab", []⟩ (by decide) (by decide) (by decide)⟩

/-! Lemmas for the descendant query (claims C1 and C10). -/

theorem node_label_get (n : Node) :
    n.get_property "label" false =
      match dlookup n.properties "label" with
      | some v => PRes.val v
      | Option.none => PRes.keyError := by
  have : ("label" : String) ≠ "id" := by decide
  simp [Node.get_property, base_get_property, this]

theorem getitem_kid (g : InternalGraph) (i : GId) :
    g.getitem (Key.kid i) =
      match g.nodes.find? (fun x => decide (x.id = i)) with
      | some x => some (GItem.nd x)
      | Option.none => (g.edges.find? (fun x => decide (x.id = i))).map GItem.ed :=
  rfl

theorem resolveChild_spec (g : InternalGraph) (cid : GId) (n : Node)
    (h : resolveChild g cid = some n) : n ∈ g.nodes ∧ n.id = cid := by
  unfold resolveChild at h
  rw [getitem_kid] at h
  cases hf : g.nodes.find? (fun x => decide (x.id = cid)) with
  | some x =>
    rw [hf] at h
    simp only [Option.some.injEq] at h
    subst h
    have hpx := List.find?_some hf
    simp only [decide_eq_true_eq] at hpx
    exact ⟨List.mem_of_find?_eq_some hf, hpx⟩
  | none =>
    rw [hf] at h
    cases he : (g.edges.find? (fun x => decide (x.id = cid))) with
    | some e => rw [he] at h; simp at h
    | none => rw [he] at h; simp at h

theorem resolveAll_some (g : InternalGraph) (ids : List GId)
    (h : ∀ cid ∈ ids, (resolveChild g cid).isSome = true) :
    resolveAll g ids = some (ids.filterMap (resolveChild g)) := by
  induction ids with
  | nil => rfl
  | cons cid rest ih =>
    have h1 : (resolveChild g cid).isSome = true :=
      h cid (List.mem_cons_self cid rest)
    obtain ⟨n, hn⟩ := Option.isSome_iff_exists.1 h1
    have h2 := ih (fun c hc => h c (List.mem_cons_of_mem cid hc))
    unfold resolveAll
    rw [hn, h2]
    simp [List.filterMap_cons, hn]

theorem resolveAll_kids (g : InternalGraph) (hR : Resolvable g) (u : Node) :
    resolveAll g
        ((g.edges.filter (fun e => decide (e.from_id = u.id))).map Edge.to_id)
      = some (kids g u) := by
  unfold kids
  refine resolveAll_some g _ ?_
  intro cid hc
  obtain ⟨e, he, rfl⟩ := List.mem_map.1 hc
  exact hR e (List.mem_of_mem_filter he)

theorem kids_mem_nodes (g : InternalGraph) (u n : Node) (h : n ∈ kids g u) :
    n ∈ g.nodes ∧ stepR g u.id n.id := by
  obtain ⟨cid, hcid, hres⟩ := List.mem_filterMap.1 h
  obtain ⟨e, he, rfl⟩ := List.mem_map.1 hcid
  obtain ⟨hmem, hid⟩ := resolveChild_spec g e.to_id n hres
  have hp := List.of_mem_filter he
  simp only [decide_eq_true_eq] at hp
  exact ⟨hmem, e, List.mem_of_mem_filter he, hp, hid.symm⟩

theorem desc_transGen (g : InternalGraph) (u n : Node) (h : Desc g u n) :
    Relation.TransGen (stepR g) u.id n.id := by
  induction h with
  | base hk => exact Relation.TransGen.single (kids_mem_nodes g _ _ hk).2
  | step _ _ hk ih => exact Relation.TransGen.tail ih (kids_mem_nodes g _ _ hk).2

theorem desc_trans (g : InternalGraph) (u w n : Node) (huw : Desc g u w)
    (hc : colonN w = true) (hwn : Desc g w n) : Desc g u n := by
  induction hwn with
  | base hk => exact Desc.step huw hc hk
  | step _ hcm hk ih => exact Desc.step ih hcm hk

theorem kids_char (g : InternalGraph) (hR : Resolvable g) (hN : NodupIds g)
    (u n : Node) : n ∈ kids g u ↔ (n ∈ g.nodes ∧ stepR g u.id n.id) := by
  constructor
  · exact kids_mem_nodes g u n
  · rintro ⟨hn, e, he, hfrom, hto⟩
    have hres : (resolveChild g e.to_id).isSome = true := hR e he
    obtain ⟨m, hm⟩ := Option.isSome_iff_exists.1 hres
    obtain ⟨hmn, hmid⟩ := resolveChild_spec g e.to_id m hm
    have : m = n := by
      have h1 : m.id = n.id := by rw [hmid, hto]
      exact List.inj_on_of_nodup_map hN hmn hn h1
    subst this
    refine List.mem_filterMap.2 ⟨e.to_id, ?_, hm⟩
    refine List.mem_map.2 ⟨e, List.mem_filter.2 ⟨he, decide_eq_true hfrom⟩, rfl⟩

theorem desc_to_reach (g : InternalGraph) (u n : Node) (h : Desc g u n) :
    n ∈ g.nodes ∧ ReachVC g u.id n.id := by
  induction h with
  | base hk =>
    obtain ⟨hn, e, he, hf, ht⟩ := kids_mem_nodes g _ _ hk
    exact ⟨hn, ht ▸ ReachVC.direct e he hf⟩
  | step hm hc hk ih =>
    obtain ⟨hn, e, he, hf, ht⟩ := kids_mem_nodes g _ _ hk
    exact ⟨hn, ht ▸ ReachVC.through _ e ih.2 ⟨_, ih.1, rfl, hc⟩ he hf⟩

theorem reach_to_desc (g : InternalGraph) (hR : Resolvable g) (hN : NodupIds g)
    (u : Node) (b : GId) (h : ReachVC g u.id b) :
    ∀ w ∈ g.nodes, w.id = b → Desc g u w := by
  induction h with
  | direct e he hf =>
    intro w hw hwid
    exact Desc.base ((kids_char g hR hN u w).2 ⟨hw, e, he, hf, hwid.symm⟩)
  | through m e _ hcm he hf ih =>
    intro w hw hwid
    obtain ⟨md, hmd, hmdid, hmc⟩ := hcm
    refine Desc.step (ih md hmd hmdid) hmc
      ((kids_char g hR hN md w).2 ⟨hw, e, he, ?_, hwid.symm⟩)
    rw [hmdid, hf]

theorem astrict_finite (g : InternalGraph) (a : GId) : (Astrict g a).Finite :=
  Set.Finite.subset (List.finite_toSet (g.nodes.map Node.id)) (fun _ hb => hb.1)

theorem astrict_card_le (g : InternalGraph) (a : GId) :
    (Astrict g a).ncard ≤ g.nodes.length := by
  have h1 : (Astrict g a).ncard ≤ {b : GId | b ∈ g.nodes.map Node.id}.ncard :=
    Set.ncard_le_ncard (fun _ hb => hb.1) (List.finite_toSet _)
  have h2 : {b : GId | b ∈ g.nodes.map Node.id}
      = ((g.nodes.map Node.id).toFinset : Set GId) := by
    ext b
    simp
  rw [h2, Set.ncard_coe_Finset] at h1
  exact le_trans h1 (le_trans (List.toFinset_card_le _) (by simp))

theorem astrict_lt (g : InternalGraph) (hA : Acyclic g) (w : Node)
    (hw : w ∈ g.nodes) (u : GId) (h : Relation.TransGen (stepR g) u w.id) :
    (Astrict g w.id).ncard < (Astrict g u).ncard := by
  have hsub : Astrict g w.id ⊆ Astrict g u := by
    rintro b ⟨hb1, hb2⟩
    exact ⟨hb1, Relation.TransGen.trans h hb2⟩
  have hwin : w.id ∈ Astrict g u := ⟨List.mem_map_of_mem Node.id hw, h⟩
  have hwout : w.id ∉ Astrict g w.id := fun hmem => hA w.id hmem.2
  exact Set.ncard_lt_ncard
    ((Set.ssubset_iff_of_subset hsub).2 ⟨w.id, hwin, hwout⟩)
    (astrict_finite g u)

theorem muRem_le (g : InternalGraph) (t : List Node) :
    muRem g t ≤ g.nodes.length :=
  le_trans (List.length_filter_le _ _) (List.Sublist.length_le (List.dedup_sublist _))

theorem filter_notmem_append_singleton (l t : List Node) (c : Node)
    (hl : l.Nodup) (hcl : c ∈ l) (hct : c ∉ t) :
    (l.filter (fun x => !(decide (x ∈ t ++ [c])))).length + 1
      = (l.filter (fun x => !(decide (x ∈ t)))).length := by
  induction l with
  | nil => cases hcl
  | cons a as ih =>
    rw [List.filter_cons, List.filter_cons]
    rcases List.mem_cons.1 hcl with heqc | hcas
    · subst heqc
      have hnotin : c ∉ as := (List.nodup_cons.1 hl).1
      have h1 : (!(decide (c ∈ t ++ [c]))) = false := by simp
      have h2 : (!(decide (c ∈ t))) = true := by simp [hct]
      rw [h1, h2, if_neg Bool.false_ne_true, if_pos rfl]
      have hsame : as.filter (fun x => !(decide (x ∈ t ++ [c])))
          = as.filter (fun x => !(decide (x ∈ t))) := by
        apply List.filter_congr
        intro x hx
        have hxc : x ≠ c := fun h => hnotin (h ▸ hx)
        simp [List.mem_append, hxc]
      rw [hsame, List.length_cons]
    · have hlas : as.Nodup := (List.nodup_cons.1 hl).2
      have hac : a ≠ c := fun h => (List.nodup_cons.1 hl).1 (h ▸ hcas)
      have heq2 : (!(decide (a ∈ t ++ [c]))) = (!(decide (a ∈ t))) := by
        simp [List.mem_append, hac]
      rw [heq2]
      have hih := ih hlas hcas
      cases hda : (!(decide (a ∈ t))) with
      | false =>
        rw [if_neg Bool.false_ne_true, if_neg Bool.false_ne_true]
        exact hih
      | true =>
        rw [if_pos rfl, if_pos rfl, List.length_cons, List.length_cons]
        omega

theorem muRem_append (g : InternalGraph) (t : List Node) (c : Node)
    (hc : c ∈ g.nodes) (hct : c ∉ t) :
    muRem g (t ++ [c]) + 1 = muRem g t :=
  filter_notmem_append_singleton g.nodes.dedup t c (List.nodup_dedup _)
    (List.mem_dedup.2 hc) hct

theorem mergeTodo_nil (done todo : List Node) : mergeTodo done todo [] = todo :=
  rfl

theorem mergeTodo_cons (done todo : List Node) (c : Node) (cs : List Node) :
    mergeTodo done todo (c :: cs)
      = mergeTodo done (if c ∈ done ++ todo then todo else todo ++ [c]) cs := by
  unfold mergeTodo
  rw [List.foldl_cons]

theorem mergeTodo_sup_todo (done : List Node) (children : List Node) :
    ∀ todo (x : Node), x ∈ todo → x ∈ mergeTodo done todo children := by
  induction children with
  | nil => intro todo x hx; exact hx
  | cons c cs ih =>
    intro todo x hx
    rw [mergeTodo_cons]
    by_cases h : c ∈ done ++ todo
    · rw [if_pos h]
      exact ih todo x hx
    · rw [if_neg h]
      exact ih (todo ++ [c]) x (List.mem_append_left _ hx)

theorem mergeTodo_children (done : List Node) (children : List Node) :
    ∀ todo (c' : Node), c' ∈ children → c' ∈ done ++ mergeTodo done todo children := by
  induction children with
  | nil => intro todo c' hc'; cases hc'
  | cons c cs ih =>
    intro todo c' hc'
    rw [mergeTodo_cons]
    rcases List.mem_cons.1 hc' with rfl | hcs
    · by_cases h : c' ∈ done ++ todo
      · rw [if_pos h]
        rcases List.mem_append.1 h with h1 | h1
        · exact List.mem_append_left _ h1
        · exact List.mem_append_right _ (mergeTodo_sup_todo done cs todo c' h1)
      · rw [if_neg h]
        exact List.mem_append_right _
          (mergeTodo_sup_todo done cs (todo ++ [c']) c'
            (List.mem_append_right _ (List.mem_singleton.2 rfl)))
    · by_cases h : c ∈ done ++ todo
      · rw [if_pos h]
        exact ih todo c' hcs
      · rw [if_neg h]
        exact ih (todo ++ [c]) c' hcs

theorem mergeTodo_sub (done : List Node) (children : List Node) :
    ∀ todo (x : Node), x ∈ mergeTodo done todo children →
      x ∈ todo ∨ x ∈ children := by
  induction children with
  | nil => intro todo x hx; exact Or.inl hx
  | cons c cs ih =>
    intro todo x hx
    rw [mergeTodo_cons] at hx
    by_cases h : c ∈ done ++ todo
    · rw [if_pos h] at hx
      rcases ih todo x hx with h1 | h1
      · exact Or.inl h1
      · exact Or.inr (List.mem_cons_of_mem c h1)
    · rw [if_neg h] at hx
      rcases ih (todo ++ [c]) x hx with h1 | h1
      · rcases List.mem_append.1 h1 with h2 | h2
        · exact Or.inl h2
        · exact Or.inr (List.mem_cons.2 (Or.inl (List.mem_singleton.1 h2)))
      · exact Or.inr (List.mem_cons_of_mem c h1)

theorem mergeTodo_nodup (done : List Node) (children : List Node) :
    ∀ todo, (done ++ todo).Nodup → (done ++ mergeTodo done todo children).Nodup := by
  induction children with
  | nil => intro todo h; exact h
  | cons c cs ih =>
    intro todo h
    rw [mergeTodo_cons]
    by_cases hm : c ∈ done ++ todo
    · rw [if_pos hm]
      exact ih todo h
    · rw [if_neg hm]
      refine ih (todo ++ [c]) ?_
      have h1 : done ++ (todo ++ [c]) = (done ++ todo) ++ [c] :=
        (List.append_assoc done todo [c]).symm
      rw [h1, List.nodup_append]
      exact ⟨h, List.nodup_singleton c,
        fun x hx hx1 => hm ((List.mem_singleton.1 hx1) ▸ hx)⟩

theorem mergeTodo_len_mu (g : InternalGraph) (done : List Node)
    (children : List Node) (hch : ∀ c ∈ children, c ∈ g.nodes) :
    ∀ todo, (mergeTodo done todo children).length
        + muRem g (done ++ mergeTodo done todo children)
      = todo.length + muRem g (done ++ todo) := by
  induction children with
  | nil => intro todo; rfl
  | cons c cs ih =>
    intro todo
    have hcn : c ∈ g.nodes := hch c (List.mem_cons_self c cs)
    have hch' : ∀ x ∈ cs, x ∈ g.nodes := fun x hx => hch x (List.mem_cons_of_mem c hx)
    rw [mergeTodo_cons]
    by_cases hm : c ∈ done ++ todo
    · rw [if_pos hm]
      exact ih hch' todo
    · rw [if_neg hm]
      have h1 := ih hch' (todo ++ [c])
      have h2 : done ++ (todo ++ [c]) = (done ++ todo) ++ [c] :=
        (List.append_assoc done todo [c]).symm
      rw [h1, List.length_append, h2]
      have h3 := muRem_append g (done ++ todo) c hcn hm
      simp only [List.length_singleton]
      omega

theorem parentsAllow_none (u : Node) : parentsAllow Option.none u = true :=
  rfl

theorem colonN_eq (w : Node) (lv : Value)
    (hl : dlookup w.properties "label" = some lv) :
    colonN w = labelHasColon lv := by
  unfold colonN
  rw [hl]

theorem labelled_of_lookup (w : Node) (lv : Value)
    (hl : dlookup w.properties "label" = some lv) : labelled w := by
  unfold labelled
  rw [hl]
  rfl

theorem kids_len_le (g : InternalGraph) (u : Node) :
    (kids g u).length ≤ g.edges.length := by
  unfold kids
  refine le_trans (List.length_filterMap_le _ _) ?_
  rw [List.length_map]
  exact List.length_filter_le _ _

theorem gapLoop_nil (g : InternalGraph) (φ : Nat) (p : Option (List Node))
    (done : List Node) :
    gapLoop g (φ+1) p done [] = GapRes.res (some done) :=
  rfl

theorem gapLoop_cons (g : InternalGraph) (φ : Nat) (p : Option (List Node))
    (done : List Node) (w : Node) (rest : List Node) :
    gapLoop g (φ+1) p done (w :: rest) =
      match w.get_property "label" false with
      | PRes.keyError => GapRes.keyError
      | PRes.pyNone => GapRes.keyError
      | PRes.val lv =>
        if labelHasColon lv then
          if parentsAllow p w then
            match get_all_node_parents g φ w (some (done ++ w :: rest)) with
            | GapRes.res (some children) =>
              gapLoop g φ p (done ++ [w]) (mergeTodo (done ++ [w]) rest children)
            | GapRes.res Option.none => gapLoop g φ p (done ++ [w]) rest
            | e => e
          else gapLoop g φ p (done ++ [w]) rest
        else gapLoop g φ p (done ++ [w]) rest :=
  rfl

theorem gap_succ (g : InternalGraph) (φ : Nat) (start : Node)
    (parents : Option (List Node)) :
    get_all_node_parents g (φ+1) start parents =
      match resolveAll g
          ((g.edges.filter (fun e => decide (e.from_id = start.id))).map
            Edge.to_id) with
      | Option.none => GapRes.lookupError
      | some total =>
        if total.isEmpty then GapRes.res Option.none
        else gapLoop g φ parents [] total :=
  rfl

theorem gapLoop_spec (g : InternalGraph) (hA : Acyclic g)
    (u : Node) (d : Nat) (hcard : (Astrict g u.id).ncard ≤ d + 1)
    (IH : ∀ w : Node, w ∈ g.nodes → (Astrict g w.id).ncard ≤ d →
      ∀ (parents : Option (List Node)) (fuel : Nat), fNeed g d ≤ fuel →
        GapOut g w parents (get_all_node_parents g fuel w parents)) :
    ∀ (fuel : Nat) (done todo : List Node) (parents : Option (List Node)),
      (∀ n ∈ done, n ∈ g.nodes ∧ Desc g u n ∧ labelled n) →
      (∀ n ∈ todo, n ∈ g.nodes ∧ Desc g u n) →
      (parents = Option.none → ∀ w ∈ done, colonN w = true →
        ∀ c ∈ kids g w, c ∈ done ++ todo) →
      fNeed g d + todo.length + muRem g (done ++ todo) + 1 ≤ fuel →
      ((gapLoop g fuel parents done todo = GapRes.keyError ∨
        ∃ l, gapLoop g fuel parents done todo = GapRes.res (some l) ∧
          (∀ n ∈ done ++ todo, n ∈ l) ∧
          (∀ n ∈ l, n ∈ g.nodes ∧ Desc g u n ∧ labelled n) ∧
          ((done ++ todo).Nodup → l.Nodup) ∧
          (parents = Option.none → ∀ w ∈ l, colonN w = true →
            ∀ c ∈ kids g w, c ∈ l)) ∧
        (LabelsOk g → gapLoop g fuel parents done todo ≠ GapRes.keyError)) := by
  intro fuel
  induction fuel with
  | zero =>
    intro done todo parents _ _ _ hfuel
    omega
  | succ φ ihf =>
    intro done todo parents hdone htodo hclosure hfuel
    cases todo with
    | nil =>
      rw [gapLoop_nil]
      refine ⟨Or.inr ⟨done, rfl, ?_, ?_, ?_, ?_⟩, fun _ h => by cases h⟩
      · intro n hn
        simpa using hn
      · exact hdone
      · intro h
        simpa using h
      · intro hp w hw hcw c hc
        have := hclosure hp w hw hcw c hc
        simpa using this
    | cons w rest =>
      have hw : w ∈ g.nodes := (htodo w (List.mem_cons_self w rest)).1
      have hdescw : Desc g u w := (htodo w (List.mem_cons_self w rest)).2
      have hsplit : (done ++ [w]) ++ rest = done ++ w :: rest := by
        simp
      rw [gapLoop_cons, node_label_get]
      cases hl : dlookup w.properties "label" with
      | none =>
        refine ⟨Or.inl rfl, ?_⟩
        intro hLO h
        have : labelled w := hLO w hw
        unfold labelled at this
        rw [hl] at this
        cases this
      | some lv =>
        simp only []
        have hlblw : labelled w := labelled_of_lookup w lv hl
        have hdone' : ∀ n ∈ done ++ [w], n ∈ g.nodes ∧ Desc g u n ∧ labelled n := by
          intro n hn
          rcases List.mem_append.1 hn with h | h
          · exact hdone n h
          · rw [List.mem_singleton.1 h]
            exact ⟨hw, hdescw, hlblw⟩
        have htodo' : ∀ n ∈ rest, n ∈ g.nodes ∧ Desc g u n :=
          fun n hn => htodo n (List.mem_cons_of_mem w hn)
        by_cases hc : labelHasColon lv = true
        · rw [if_pos hc]
          have hcolw : colonN w = true := by rw [colonN_eq w lv hl]; exact hc
          by_cases hal : parentsAllow parents w = true
          · rw [if_pos hal]
            have htg : Relation.TransGen (stepR g) u.id w.id :=
              desc_transGen g u w hdescw
            have hcw : (Astrict g w.id).ncard ≤ d := by
              have := astrict_lt g hA w hw u.id htg
              omega
            have hφ : fNeed g d ≤ φ := by
              simp only [List.length_cons] at hfuel
              omega
            have hchild := IH w hw hcw (some (done ++ w :: rest)) φ hφ
            obtain ⟨⟨hempty, hne⟩, hkerr⟩ := hchild
            by_cases hkw : kids g w = []
            · have hcres : get_all_node_parents g φ w (some (done ++ w :: rest))
                  = GapRes.res Option.none := hempty hkw
              rw [hcres]
              have hclosure' : parents = Option.none →
                  ∀ w' ∈ done ++ [w], colonN w' = true →
                    ∀ c ∈ kids g w', c ∈ (done ++ [w]) ++ rest := by
                intro hp w' hw' hcw' c hck
                rcases List.mem_append.1 hw' with h | h
                · rw [hsplit]
                  exact hclosure hp w' h hcw' c hck
                · rw [List.mem_singleton.1 h] at hck
                  rw [hkw] at hck
                  cases hck
              have hfuel' : fNeed g d + rest.length
                  + muRem g ((done ++ [w]) ++ rest) + 1 ≤ φ := by
                rw [hsplit]
                simp only [List.length_cons] at hfuel
                omega
              obtain ⟨hdisj, hnk⟩ :=
                ihf (done ++ [w]) rest parents hdone' htodo' hclosure' hfuel'
              refine ⟨?_, hnk⟩
              rcases hdisj with h | ⟨l, hres, hext, hsound, hnodup, hclo⟩
              · exact Or.inl h
              · refine Or.inr ⟨l, hres, ?_, hsound, ?_, hclo⟩
                · intro n hn
                  refine hext n ?_
                  rw [hsplit]
                  exact hn
                · intro hnd
                  refine hnodup ?_
                  rw [hsplit]
                  exact hnd
            · rcases hne hkw with hker | ⟨children, hcres, hchkids, hchsound, hchnodup, _⟩
              · rw [hker]
                refine ⟨Or.inl rfl, ?_⟩
                intro hLO
                exact absurd hker (hkerr hLO)
              · rw [hcres]
                have hchnodes : ∀ c ∈ children, c ∈ g.nodes :=
                  fun c hc' => (hchsound c hc').1
                have htodo'' : ∀ n ∈ mergeTodo (done ++ [w]) rest children,
                    n ∈ g.nodes ∧ Desc g u n := by
                  intro n hn
                  rcases mergeTodo_sub (done ++ [w]) children rest n hn with h | h
                  · exact htodo' n h
                  · exact ⟨(hchsound n h).1,
                      desc_trans g u w n hdescw hcolw (hchsound n h).2.1⟩
                have hclosure' : parents = Option.none →
                    ∀ w' ∈ done ++ [w], colonN w' = true →
                      ∀ c ∈ kids g w',
                        c ∈ (done ++ [w]) ++ mergeTodo (done ++ [w]) rest children := by
                  intro hp w' hw' hcw' c hck
                  rcases List.mem_append.1 hw' with h | h
                  · have hold := hclosure hp w' h hcw' c hck
                    rw [← hsplit] at hold
                    rcases List.mem_append.1 hold with h1 | h1
                    · exact List.mem_append_left _ h1
                    · exact List.mem_append_right _
                        (mergeTodo_sup_todo (done ++ [w]) children rest c h1)
                  · rw [List.mem_singleton.1 h] at hck
                    exact mergeTodo_children (done ++ [w]) children rest c
                      (hchkids c hck)
                have hfuel' : fNeed g d
                    + (mergeTodo (done ++ [w]) rest children).length
                    + muRem g ((done ++ [w]) ++ mergeTodo (done ++ [w]) rest children)
                    + 1 ≤ φ := by
                  have hlm := mergeTodo_len_mu g (done ++ [w]) children hchnodes rest
                  have hspl : muRem g ((done ++ [w]) ++ rest)
                      = muRem g (done ++ w :: rest) := by rw [hsplit]
                  simp only [List.length_cons] at hfuel
                  omega
                obtain ⟨hdisj, hnk⟩ :=
                  ihf (done ++ [w]) (mergeTodo (done ++ [w]) rest children)
                    parents hdone' htodo'' hclosure' hfuel'
                refine ⟨?_, hnk⟩
                rcases hdisj with h | ⟨l, hres, hext, hsound, hnodup, hclo⟩
                · exact Or.inl h
                · refine Or.inr ⟨l, hres, ?_, hsound, ?_, hclo⟩
                  · intro n hn
                    rw [← hsplit] at hn
                    rcases List.mem_append.1 hn with h1 | h1
                    · exact hext n (List.mem_append_left _ h1)
                    · exact hext n (List.mem_append_right _
                        (mergeTodo_sup_todo (done ++ [w]) children rest n h1))
                  · intro hnd
                    refine hnodup (mergeTodo_nodup (done ++ [w]) children rest ?_)
                    rw [hsplit]
                    exact hnd
          · rw [if_neg hal]
            have hclosure' : parents = Option.none →
                ∀ w' ∈ done ++ [w], colonN w' = true →
                  ∀ c ∈ kids g w', c ∈ (done ++ [w]) ++ rest := by
              intro hp
              rw [hp] at hal
              exact absurd (parentsAllow_none w) hal
            have hfuel' : fNeed g d + rest.length
                + muRem g ((done ++ [w]) ++ rest) + 1 ≤ φ := by
              rw [hsplit]
              simp only [List.length_cons] at hfuel
              omega
            obtain ⟨hdisj, hnk⟩ :=
              ihf (done ++ [w]) rest parents hdone' htodo' hclosure' hfuel'
            refine ⟨?_, hnk⟩
            rcases hdisj with h | ⟨l, hres, hext, hsound, hnodup, hclo⟩
            · exact Or.inl h
            · refine Or.inr ⟨l, hres, ?_, hsound, ?_, hclo⟩
              · intro n hn
                refine hext n ?_
                rw [hsplit]
                exact hn
              · intro hnd
                refine hnodup ?_
                rw [hsplit]
                exact hnd
        · rw [if_neg hc]
          have hclosure' : parents = Option.none →
              ∀ w' ∈ done ++ [w], colonN w' = true →
                ∀ c ∈ kids g w', c ∈ (done ++ [w]) ++ rest := by
            intro hp w' hw' hcw' c hck
            rcases List.mem_append.1 hw' with h | h
            · rw [hsplit]
              exact hclosure hp w' h hcw' c hck
            · rw [List.mem_singleton.1 h] at hcw'
              rw [colonN_eq w lv hl] at hcw'
              exact absurd hcw' hc
          have hfuel' : fNeed g d + rest.length
              + muRem g ((done ++ [w]) ++ rest) + 1 ≤ φ := by
            rw [hsplit]
            simp only [List.length_cons] at hfuel
            omega
          obtain ⟨hdisj, hnk⟩ :=
            ihf (done ++ [w]) rest parents hdone' htodo' hclosure' hfuel'
          refine ⟨?_, hnk⟩
          rcases hdisj with h | ⟨l, hres, hext, hsound, hnodup, hclo⟩
          · exact Or.inl h
          · refine Or.inr ⟨l, hres, ?_, hsound, ?_, hclo⟩
            · intro n hn
              refine hext n ?_
              rw [hsplit]
              exact hn
            · intro hnd
              refine hnodup ?_
              rw [hsplit]
              exact hnd

theorem gap_spec (g : InternalGraph) (hA : Acyclic g) (hR : Resolvable g) :
    ∀ (d : Nat) (u : Node), (Astrict g u.id).ncard ≤ d →
      ∀ (parents : Option (List Node)) (fuel : Nat), fNeed g d ≤ fuel →
        GapOut g u parents (get_all_node_parents g fuel u parents) := by
  intro d
  induction d with
  | zero =>
    intro u hcard parents fuel hfuel
    have h1 : 1 ≤ fuel := by
      unfold fNeed at hfuel
      omega
    obtain ⟨φ, rfl⟩ : ∃ φ, fuel = φ + 1 :=
      ⟨fuel - 1, by omega⟩
    have hkw : kids g u = [] := by
      by_contra hne
      obtain ⟨n, hn⟩ := List.exists_mem_of_ne_nil _ hne
      obtain ⟨hnn, hstep⟩ := kids_mem_nodes g u n hn
      have hmem : n.id ∈ Astrict g u.id :=
        ⟨List.mem_map_of_mem Node.id hnn, Relation.TransGen.single hstep⟩
      have hpos : 0 < (Astrict g u.id).ncard :=
        (Set.ncard_pos (astrict_finite g u.id)).2 ⟨n.id, hmem⟩
      omega
    rw [gap_succ, resolveAll_kids g hR u, hkw]
    refine ⟨⟨fun _ => rfl, fun hne => absurd hkw hne⟩, fun _ h => by cases h⟩
  | succ d ihd =>
    intro u hcard parents fuel hfuel
    have h1 : 1 ≤ fuel := by
      unfold fNeed at hfuel
      omega
    obtain ⟨φ, rfl⟩ : ∃ φ, fuel = φ + 1 :=
      ⟨fuel - 1, by omega⟩
    rw [gap_succ, resolveAll_kids g hR u]
    by_cases hkw : kids g u = []
    · rw [hkw]
      refine ⟨⟨fun _ => rfl, fun hne => absurd hkw hne⟩, fun _ h => by cases h⟩
    · have hie : (kids g u).isEmpty = false := by
        cases hk : kids g u with
        | nil => exact absurd hk hkw
        | cons a as => rfl
      simp only [hie, Bool.false_eq_true, if_false]
      have htodo0 : ∀ n ∈ kids g u, n ∈ g.nodes ∧ Desc g u n :=
        fun n hn => ⟨(kids_mem_nodes g u n hn).1, Desc.base hn⟩
      have hfuel0 : fNeed g d + (kids g u).length + muRem g ([] ++ kids g u) + 1
          ≤ φ := by
        have hk1 : (kids g u).length ≤ g.edges.length := kids_len_le g u
        have hmu : muRem g ([] ++ kids g u) ≤ g.nodes.length := muRem_le g _
        have hfe : fNeed g (d+1)
            = fNeed g d + (g.edges.length + g.nodes.length + 2) := by
          unfold fNeed
          ring
        rw [hfe] at hfuel
        omega
      obtain ⟨hdisj, hnk⟩ :=
        gapLoop_spec g hA u d hcard
          (fun w _ hcw parents fuel hf => ihd w hcw parents fuel hf)
          φ [] (kids g u) parents
          (fun n hn => absurd hn (List.not_mem_nil n))
          htodo0
          (fun _ w hw => absurd hw (List.not_mem_nil w))
          hfuel0
      refine ⟨⟨fun h => absurd h hkw, fun _ => ?_⟩, hnk⟩
      rcases hdisj with h | ⟨l, hres, hext, hsound, hnodup, hclo⟩
      · exact Or.inl h
      · refine Or.inr ⟨l, hres, ?_, hsound, ?_, hclo⟩
        · intro n hn
          exact hext n (by simpa using hn)
        · intro hnd
          exact hnodup (by simpa using hnd)

theorem kids_nil_iff (g : InternalGraph) (hR : Resolvable g) (start : Node) :
    kids g start = [] ↔
      g.edges.filter (fun e => decide (e.from_id = start.id)) = [] := by
  constructor
  · intro hk
    by_contra hne
    obtain ⟨e, he⟩ := List.exists_mem_of_ne_nil _ hne
    have hsome : (resolveChild g e.to_id).isSome = true :=
      hR e (List.mem_of_mem_filter he)
    obtain ⟨n, hn⟩ := Option.isSome_iff_exists.1 hsome
    have : n ∈ kids g start :=
      List.mem_filterMap.2 ⟨e.to_id, List.mem_map.2 ⟨e, he, rfl⟩, hn⟩
    rw [hk] at this
    cases this
  · intro hf
    unfold kids
    rw [hf]
    rfl

theorem count_append_one (l : List Node) (c x : Node) :
    (l ++ [c]).count x = l.count x + (if x = c then 1 else 0) := by
  rw [List.count_append]
  by_cases h : x = c <;> simp [h]

theorem mergeTodo_count (done : List Node) (children : List Node) :
    ∀ (todo : List Node) (x : Node),
      (done ++ mergeTodo done todo children).count x = (done ++ todo).count x ∨
      ((done ++ todo).count x = 0 ∧
        (done ++ mergeTodo done todo children).count x = 1) := by
  induction children with
  | nil => intro todo x; exact Or.inl rfl
  | cons c cs ih =>
    intro todo x
    rw [mergeTodo_cons]
    by_cases hm : c ∈ done ++ todo
    · rw [if_pos hm]
      exact ih todo x
    · rw [if_neg hm]
      have hassoc : done ++ (todo ++ [c]) = (done ++ todo) ++ [c] :=
        (List.append_assoc done todo [c]).symm
      have hstep : (done ++ (todo ++ [c])).count x
          = (done ++ todo).count x + (if x = c then 1 else 0) := by
        rw [hassoc, count_append_one]
      rcases ih (todo ++ [c]) x with h | ⟨h0, h1⟩
      · by_cases hxc : x = c
        · subst hxc
          right
          have hz : (done ++ todo).count x = 0 := List.count_eq_zero.2 hm
          refine ⟨hz, ?_⟩
          rw [h, hstep, hz, if_pos rfl]
        · left
          rw [h, hstep, if_neg hxc]
          omega
      · right
        rw [hstep] at h0
        refine ⟨?_, h1⟩
        omega

theorem gapLoop_count (g : InternalGraph) (u : Node) :
    ∀ (fuel : Nat) (done todo : List Node) (parents : Option (List Node))
      (l : List Node),
      (∀ x ∈ done ++ todo, (done ++ todo).count x = max ((kids g u).count x) 1) →
      (∀ n ∈ kids g u, n ∈ done ++ todo) →
      gapLoop g fuel parents done todo = GapRes.res (some l) →
      ∀ x ∈ l, l.count x = max ((kids g u).count x) 1 := by
  intro fuel
  induction fuel with
  | zero =>
    intro done todo parents l _ _ hres
    cases hres
  | succ φ ihf =>
    intro done todo parents l hcnt hsub hres
    cases todo with
    | nil =>
      rw [gapLoop_nil] at hres
      simp only [GapRes.res.injEq, Option.some.injEq] at hres
      subst hres
      intro x hx
      have := hcnt x (by simpa using hx)
      simpa using this
    | cons w rest =>
      have hsplit : (done ++ [w]) ++ rest = done ++ w :: rest := by
        simp
      rw [gapLoop_cons, node_label_get] at hres
      cases hl : dlookup w.properties "label" with
      | none =>
        rw [hl] at hres
        cases hres
      | some lv =>
        rw [hl] at hres
        simp only [] at hres
        by_cases hc : labelHasColon lv = true
        · rw [if_pos hc] at hres
          by_cases hal : parentsAllow parents w = true
          · rw [if_pos hal] at hres
            cases hch : get_all_node_parents g φ w (some (done ++ w :: rest)) with
            | outOfFuel =>
              rw [hch] at hres
              cases hres
            | keyError =>
              rw [hch] at hres
              cases hres
            | lookupError =>
              rw [hch] at hres
              cases hres
            | res r =>
              cases r with
              | none =>
                rw [hch] at hres
                simp only [] at hres
                refine ihf (done ++ [w]) rest parents l ?_ ?_ hres
                · intro x hx
                  rw [hsplit] at hx ⊢
                  exact hcnt x hx
                · intro n hn
                  rw [hsplit]
                  exact hsub n hn
              | some children =>
                rw [hch] at hres
                simp only [] at hres
                refine ihf (done ++ [w]) (mergeTodo (done ++ [w]) rest children)
                  parents l ?_ ?_ hres
                · intro x hx
                  rcases mergeTodo_count (done ++ [w]) children rest x
                    with h | ⟨h0, h1⟩
                  · have hxold : x ∈ done ++ w :: rest := by
                      have hpos : 0 < ((done ++ [w])
                          ++ mergeTodo (done ++ [w]) rest children).count x :=
                        List.count_pos_iff.2 hx
                      rw [h, hsplit] at hpos
                      exact List.count_pos_iff.1 hpos
                    calc ((done ++ [w])
                          ++ mergeTodo (done ++ [w]) rest children).count x
                        = ((done ++ [w]) ++ rest).count x := h
                      _ = (done ++ w :: rest).count x := by rw [hsplit]
                      _ = max ((kids g u).count x) 1 := hcnt x hxold
                  · have hnotin : x ∉ done ++ w :: rest := by
                      rw [← hsplit]
                      exact List.count_eq_zero.1 h0
                    have hxk : x ∉ kids g u := fun hk => hnotin (hsub x hk)
                    rw [h1, List.count_eq_zero.2 hxk]
                    simp
                · intro n hn
                  have hold := hsub n hn
                  rw [← hsplit] at hold
                  rcases List.mem_append.1 hold with h1 | h1
                  · exact List.mem_append_left _ h1
                  · exact List.mem_append_right _
                      (mergeTodo_sup_todo (done ++ [w]) children rest n h1)
          · rw [if_neg hal] at hres
            refine ihf (done ++ [w]) rest parents l ?_ ?_ hres
            · intro x hx
              rw [hsplit] at hx ⊢
              exact hcnt x hx
            · intro n hn
              rw [hsplit]
              exact hsub n hn
        · rw [if_neg hc] at hres
          refine ihf (done ++ [w]) rest parents l ?_ ?_ hres
          · intro x hx
            rw [hsplit] at hx ⊢
            exact hcnt x hx
          · intro n hn
            rw [hsplit]
            exact hsub n hn

theorem count_filterMap_eq_countP (f : GId → Option Node) (l : List GId)
    (n : Node) :
    (l.filterMap f).count n = l.countP (fun a => decide (f a = some n)) := by
  induction l with
  | nil => rfl
  | cons a as ih =>
    rw [List.countP_cons]
    cases hf : f a with
    | none => simp [List.filterMap_cons, hf, ih]
    | some b =>
      by_cases hbn : b = n
      · subst hbn
        simp [List.filterMap_cons, hf, List.count_cons, ih]
      · simp [List.filterMap_cons, hf, List.count_cons, hbn, ih,
          Ne.symm hbn]

theorem kids_count (g : InternalGraph) (hR : Resolvable g) (hN : NodupIds g)
    (start : Node) (n : Node) (hn : n ∈ g.nodes) :
    (kids g start).count n
      = g.edges.countP
          (fun e => decide (e.from_id = start.id ∧ e.to_id = n.id)) := by
  unfold kids
  rw [count_filterMap_eq_countP, List.countP_map, List.countP_filter]
  refine List.countP_congr ?_
  intro e he
  simp only [Function.comp, Bool.and_eq_true, decide_eq_true_eq]
  constructor
  · rintro ⟨hrc, hfrom⟩
    obtain ⟨_, hid⟩ := resolveChild_spec g e.to_id n hrc
    exact ⟨hfrom, hid.symm⟩
  · rintro ⟨hfrom, hto⟩
    refine ⟨?_, hfrom⟩
    obtain ⟨m, hm⟩ := Option.isSome_iff_exists.1 (hR e he)
    obtain ⟨hmn, hmid⟩ := resolveChild_spec g e.to_id m hm
    have : m = n :=
      List.inj_on_of_nodup_map hN hmn hn (by rw [hmid, hto])
    rw [← this]
    exact hm

/-- C1 (amended): on an acyclic graph whose edge targets all resolve to nodes,
whose nodes all carry labels and have distinct ids, `get_all_node_parents`
called on a start node terminates (any fuel from the computable bound
`fuelBound` on gives the same, completed outcome): it returns the absent
result when `start` has no outgoing edges, and otherwise returns exactly the
set of nodes transitively reachable from `start` by following outgoing edges
through intermediate nodes whose `label` contains a colon. Each returned node
appears in the list once per outgoing edge of `start` that targets it, and at
least once; consequently each node appears at most once exactly when no two
outgoing edges of `start` share the same target (the final conjunct), while
parallel out-edges of `start` repeat their target once per edge (see the
counterexample). -/
theorem get_all_node_parents_spec (g : InternalGraph) (start : Node)
    (hA : Acyclic g) (hR : Resolvable g) (hL : LabelsOk g) (hN : NodupIds g)
    (fuel : Nat) (hf : fuelBound g ≤ fuel) :
    (g.edges.filter (fun e => decide (e.from_id = start.id)) = [] →
        get_all_node_parents g fuel start Option.none
          = GapRes.res Option.none) ∧
    (g.edges.filter (fun e => decide (e.from_id = start.id)) ≠ [] →
        ∃ l, get_all_node_parents g fuel start Option.none
            = GapRes.res (some l) ∧
          (∀ n : Node, n ∈ l ↔ (n ∈ g.nodes ∧ ReachVC g start.id n.id)) ∧
          (∀ n ∈ l, l.count n
            = max (g.edges.countP
                (fun e => decide (e.from_id = start.id ∧ e.to_id = n.id))) 1) ∧
          (((g.edges.filter (fun e => decide (e.from_id = start.id))).map
              Edge.to_id).Nodup → l.Nodup)) := by
  have hcard : (Astrict g start.id).ncard ≤ g.nodes.length :=
    astrict_card_le g start.id
  have hout := gap_spec g hA hR g.nodes.length start hcard Option.none fuel hf
  obtain ⟨⟨hempty, hne⟩, hkerr⟩ := hout
  constructor
  · intro hfe
    exact hempty ((kids_nil_iff g hR start).2 hfe)
  · intro hfne
    have hkne : kids g start ≠ [] :=
      fun hk => hfne ((kids_nil_iff g hR start).1 hk)
    rcases hne hkne with hker | ⟨l, hres, hext, hsound, hnodup, hclo⟩
    · exact absurd hker (hkerr hL)
    · refine ⟨l, hres, ?_, ?_, ?_⟩
      · intro n
        constructor
        · intro hn
          obtain ⟨hn1, hn2, _⟩ := hsound n hn
          exact ⟨hn1, (desc_to_reach g start n hn2).2⟩
        · rintro ⟨hn1, hn2⟩
          have hdesc : Desc g start n :=
            reach_to_desc g hR hN start n.id hn2 n hn1 rfl
          clear hn2
          induction hdesc with
          | base hk => exact hext _ hk
          | step hm hcm hk ihm =>
            exact hclo rfl _ (ihm (desc_to_reach g start _ hm).1) hcm _ hk
      · have h1 : 1 ≤ fuel := by
          have hfb : 1 ≤ fuelBound g := by
            unfold fuelBound fNeed
            exact Nat.le_add_left 1 _
          omega
        obtain ⟨φ, rfl⟩ : ∃ φ, fuel = φ + 1 :=
          ⟨fuel - 1, by omega⟩
        have hie : (kids g start).isEmpty = false := by
          cases hk : kids g start with
          | nil => exact absurd hk hkne
          | cons a as => rfl
        have hloop : gapLoop g φ Option.none [] (kids g start)
            = GapRes.res (some l) := by
          have hunfold := gap_succ g φ start Option.none
          rw [resolveAll_kids g hR start] at hunfold
          simp only [hie, Bool.false_eq_true, if_false] at hunfold
          rw [← hunfold]
          exact hres
        have hcnt0 : ∀ x ∈ ([] : List Node) ++ kids g start,
            (([] : List Node) ++ kids g start).count x
              = max ((kids g start).count x) 1 := by
          intro x hx
          simp only [List.nil_append] at hx ⊢
          have hpos : 0 < (kids g start).count x := List.count_pos_iff.2 hx
          exact (Nat.max_eq_left hpos).symm
        have hsub0 : ∀ n ∈ kids g start,
            n ∈ ([] : List Node) ++ kids g start := by
          intro n hn
          simpa using hn
        have hcount := gapLoop_count g start φ [] (kids g start)
          Option.none l hcnt0 hsub0 hloop
        intro n hn
        rw [hcount n hn, kids_count g hR hN start n (hsound n hn).1]
      · intro hD
        have hkidsnodup : (kids g start).Nodup := by
          unfold kids
          refine List.Nodup.filterMap ?_ hD
          intro a a' b hb hb'
          have h1 := (resolveChild_spec g a b hb).2
          have h2 := (resolveChild_spec g a' b hb').2
          rw [← h1, ← h2]
        exact hnodup hkidsnodup

theorem transGen_rank (g : InternalGraph) (rk : GId → Nat)
    (h : ∀ e ∈ g.edges, rk e.from_id < rk e.to_id) (a b : GId)
    (hab : Relation.TransGen (stepR g) a b) : rk a < rk b := by
  induction hab with
  | single hs =>
    obtain ⟨e, he, hf, ht⟩ := hs
    rw [← hf, ← ht]
    exact h e he
  | tail _ hs ih =>
    obtain ⟨e, he, hf, ht⟩ := hs
    rw [← ht]
    exact lt_trans ih (hf ▸ h e he)

theorem acyclic_of_rank (g : InternalGraph) (rk : GId → Nat)
    (h : ∀ e ∈ g.edges, rk e.from_id < rk e.to_id) : Acyclic g :=
  fun a hcyc => lt_irrefl (rk a) (transGen_rank g rk h a a hcyc)

/-- C1 fails as stated: on this acyclic, resolvable, fully labelled graph with
distinct node ids, two parallel edges from `s` to `v` make the operation return
the list `[v, v]`, in which the node `v` appears twice rather than at most
once. -/
theorem get_all_node_parents_duplicates :
    Acyclic c1Graph ∧ Resolvable c1Graph ∧ LabelsOk c1Graph ∧
    NodupIds c1Graph ∧
    get_all_node_parents c1Graph (fuelBound c1Graph) c1NodeS Option.none
      = GapRes.res (some [c1NodeV, c1NodeV]) ∧
    List.count c1NodeV [c1NodeV, c1NodeV] = 2 := by
  refine ⟨acyclic_of_rank c1Graph (fun i => if i = "s" then 0 else 1)
      (by decide), ?_, ?_, ?_, ?_, by decide⟩
  · unfold Resolvable
    decide
  · unfold LabelsOk labelled
    decide
  · unfold NodupIds
    decide
  · decide

theorem get_all_node_parents_spec_witness :
    ∃ l, get_all_node_parents w1Graph (fuelBound w1Graph) w1NodeS Option.none
        = GapRes.res (some l) ∧
      (∀ n : Node, n ∈ l ↔
        (n ∈ w1Graph.nodes ∧ ReachVC w1Graph w1NodeS.id n.id)) ∧
      (∀ n ∈ l, l.count n
        = max (w1Graph.edges.countP
            (fun e => decide (e.from_id = w1NodeS.id ∧ e.to_id = n.id))) 1) ∧
      (((w1Graph.edges.filter
          (fun e => decide (e.from_id = w1NodeS.id))).map Edge.to_id).Nodup →
        l.Nodup) :=
  (get_all_node_parents_spec w1Graph w1NodeS
    (acyclic_of_rank w1Graph
      (fun i => if i = "s" then 0 else if i = "a" then 1 else 2) (by decide))
    (by unfold Resolvable; decide) (by unfold LabelsOk labelled; decide)
    (by unfold NodupIds; decide)
    (fuelBound w1Graph) (Nat.le_refl _)).2 (by decide)

/-- C10 (amended): on an acyclic graph whose edge targets all resolve to nodes
and whose node ids are distinct, if some node directly reachable from `start`
by an outgoing edge has no `label` property, `get_all_node_parents` propagates
the missing-key error (it neither skips that node nor returns a result). -/
theorem get_all_node_parents_missing_label (g : InternalGraph) (start : Node)
    (hA : Acyclic g) (hR : Resolvable g) (hN : NodupIds g)
    (hmiss : ∃ e ∈ g.edges, e.from_id = start.id ∧ ∃ w ∈ g.nodes,
        w.id = e.to_id ∧ dlookup w.properties "label" = Option.none)
    (fuel : Nat) (hf : fuelBound g ≤ fuel) :
    get_all_node_parents g fuel start Option.none = GapRes.keyError := by
  obtain ⟨e, he, hef, w, hwn, hwid, hwl⟩ := hmiss
  have hwk : w ∈ kids g start :=
    (kids_char g hR hN start w).2 ⟨hwn, e, he, hef, hwid.symm⟩
  have hcard := astrict_card_le g start.id
  obtain ⟨⟨_, hne⟩, _⟩ :=
    gap_spec g hA hR g.nodes.length start hcard Option.none fuel hf
  have hkne : kids g start ≠ [] := by
    intro h
    rw [h] at hwk
    cases hwk
  rcases hne hkne with hker | ⟨l, hres, hext, hsound, _, _⟩
  · exact hker
  · have hwl' : labelled w := (hsound w (hext w hwk)).2.2
    unfold labelled at hwl'
    rw [hwl] at hwl'
    cases hwl'

theorem get_all_node_parents_missing_label_witness :
    get_all_node_parents w10Graph (fuelBound w10Graph) c10NodeS Option.none
      = GapRes.keyError :=
  get_all_node_parents_missing_label w10Graph c10NodeS
    (acyclic_of_rank w10Graph (fun i => if i = "s" then 0 else 1) (by decide))
    (by unfold Resolvable; decide) (by unfold NodupIds; decide) (by decide)
    (fuelBound w10Graph) (Nat.le_refl _)

/-- C10 fails as stated: on this graph the unlabelled node `b` is directly
reachable from `s`, but the first out-edge of `s` dangles, so the source fails
with an `AttributeError`-class error (`None.get_property`) — modelled as the
distinguished lookup failure — and never raises the missing-key error the
claim demands. -/
theorem get_all_node_parents_no_keyerror :
    Acyclic c10Graph ∧
    (∃ e ∈ c10Graph.edges, e.from_id = c10NodeS.id ∧ ∃ w ∈ c10Graph.nodes,
        w.id = e.to_id ∧ dlookup w.properties "label" = Option.none) ∧
    get_all_node_parents c10Graph (fuelBound c10Graph) c10NodeS Option.none
      = GapRes.lookupError ∧
    get_all_node_parents c10Graph (fuelBound c10Graph) c10NodeS Option.none
      ≠ GapRes.keyError := by
  refine ⟨acyclic_of_rank c10Graph (fun i => if i = "s" then 0 else 1) ?_,
    ?_, ?_, ?_⟩ <;> decide
